import Mathlib

/-!
Verification of NovelDownloader (src/NovelDownloader.py) against its
specification.  The Python source is shallowly embedded: pure string
processing (regex substitutions used by `clean_chapter_title`, the
`(page|p)=<digits>` search and `str.replace` used by `extract_next_page`)
is modelled over `List Char`; parsed HTML pages are modelled by a `Node`
tree together with the BeautifulSoup operations the source uses
(`find`, `find_all` + `decompose`, `get_text`); the pagination walker
(`process_page` / `download_novel`) is modelled as a state-passing
function over an oracle for `session.get` (the network), with Python
truthiness of the loop variable made explicit via `PyVal`.

Recursions that a witness must evaluate are implemented with an explicit
fuel argument (structural, hence kernel-reducible) plus a fuel-irrelevance
lemma and derived step equations; all later proofs use only the step
equations.
-/

namespace NovelDL

/-! ## Character classes

`isSpaceChar` models Python's whitespace class (`str.strip`, regex `\s`)
on the characters that can occur in this program's data: the six ASCII
whitespace characters plus NBSP and the ideographic space. -/

def isSpaceChar (c : Char) : Bool :=
  c == ' ' || c == '\t' || c == '\n' || c == '\r' || c == '\x0b' ||
  c == '\x0c' || c == '\xa0' || c == '　'

/-- Python `str.strip()` on a character list: drop whitespace at both ends. -/
def trimChars (l : List Char) : List Char :=
  ((l.dropWhile isSpaceChar).reverse.dropWhile isSpaceChar).reverse

/-- Python `str.strip()`. -/
def pyStrip (s : String) : String := (trimChars s.data).asString

/-! ## First regex of `clean_chapter_title`:
`re.sub(r"\(.*?\)|（.*?）|【.*?】", "", title)`.

At each position, an opening bracket matches non-greedily up to the first
corresponding closing bracket; `.` does not match a newline, so a match
must find its closer before any `'\n'`.  `re.sub` scans left to right,
deleting matches and resuming after each deleted span. -/

/-- The closing bracket the alternation pairs with an opening bracket. -/
def bracketClose (c : Char) : Option Char :=
  if c = '(' then some ')'
  else if c = '（' then some '）'
  else if c = '【' then some '】'
  else none

/-- Scan for the first occurrence of `cl`, failing at a newline or the end
(the `.*?` of the pattern cannot cross a newline); on success return the
remainder after `cl`. -/
def scanClose (cl : Char) : List Char → Option (List Char)
  | [] => none
  | c :: cs => if c = cl then some cs else if c = '\n' then none else scanClose cl cs

theorem scanClose_lt (cl : Char) :
    ∀ (l r : List Char), scanClose cl l = some r → r.length < l.length := by
  intro l
  induction l with
  | nil => intro r h; simp [scanClose] at h
  | cons c cs ih =>
    intro r h
    simp only [scanClose] at h
    split at h
    · cases h; simp
    · split at h
      · cases h
      · have := ih r h; simp; omega

/-- Fuel-indexed implementation of the bracket-removal pass. -/
def sub1F : Nat → List Char → List Char
  | 0, l => l
  | _ + 1, [] => []
  | fuel + 1, c :: cs =>
    match bracketClose c with
    | some cl =>
      match scanClose cl cs with
      | some rest => sub1F fuel rest
      | none => c :: sub1F fuel cs
    | none => c :: sub1F fuel cs

theorem sub1F_irrel :
    ∀ (f g : Nat) (l : List Char), l.length ≤ f → l.length ≤ g →
      sub1F f l = sub1F g l := by
  intro f
  induction f with
  | zero =>
    intro g l hf _
    have : l = [] := List.eq_nil_of_length_eq_zero (Nat.le_zero.mp hf)
    subst this
    cases g <;> rfl
  | succ n ih =>
    intro g l hf hg
    cases l with
    | nil => cases g <;> rfl
    | cons c cs =>
      cases g with
      | zero => simp at hg
      | succ m =>
        simp only [sub1F]
        cases hb : bracketClose c with
        | none =>
          have h1 : cs.length ≤ n := by simp at hf; omega
          have h2 : cs.length ≤ m := by simp at hg; omega
          rw [ih m cs h1 h2]
        | some cl =>
          cases hs : scanClose cl cs with
          | none =>
            have h1 : cs.length ≤ n := by simp at hf; omega
            have h2 : cs.length ≤ m := by simp at hg; omega
            simp only [hs]
            rw [ih m cs h1 h2]
          | some rest =>
            have hr := scanClose_lt cl cs rest hs
            have h1 : rest.length ≤ n := by simp at hf; omega
            have h2 : rest.length ≤ m := by simp at hg; omega
            simp only [hs]
            rw [ih m rest h1 h2]

/-- The bracket-removal pass (first `re.sub` of `clean_chapter_title`). -/
def sub1 (l : List Char) : List Char := sub1F l.length l

theorem sub1_nil : sub1 [] = [] := rfl

theorem sub1_cons_none (c : Char) (cs : List Char) (h : bracketClose c = none) :
    sub1 (c :: cs) = c :: sub1 cs := by
  show sub1F (cs.length + 1) (c :: cs) = c :: sub1F cs.length cs
  simp only [sub1F, h]

theorem sub1_cons_skip (c cl : Char) (cs rest : List Char)
    (h : bracketClose c = some cl) (hs : scanClose cl cs = some rest) :
    sub1 (c :: cs) = sub1 rest := by
  show sub1F (cs.length + 1) (c :: cs) = sub1F rest.length rest
  simp only [sub1F, h, hs]
  exact sub1F_irrel cs.length rest.length rest
    (Nat.le_of_lt (scanClose_lt cl cs rest hs)) (Nat.le_refl _)

theorem sub1_cons_keep (c cl : Char) (cs : List Char)
    (h : bracketClose c = some cl) (hs : scanClose cl cs = none) :
    sub1 (c :: cs) = c :: sub1 cs := by
  show sub1F (cs.length + 1) (c :: cs) = c :: sub1F cs.length cs
  simp only [sub1F, h, hs]

/-! ## Second regex of `clean_chapter_title`:
`re.sub(r"[-—]\s*第?[0-9]+[页章節]?", "", title)`.

After a dash the engine consumes the maximal whitespace run, optionally a
`第`, then needs at least one digit (maximal run), then optionally one of
`页`/`章`/`節`.  Backtracking into `\s*` or `第?` cannot rescue a failed
digit match (the characters given back are never digits), so the greedy
deterministic scan below is equivalent. -/

def isDash (c : Char) : Bool := c == '-' || c == '—'

def unitChar (c : Char) : Bool := c == '页' || c == '章' || c == '節'

/-- The optional `第?` after the whitespace run. -/
def dropJie (l : List Char) : List Char :=
  match l with
  | c :: t => if c = '第' then t else c :: t
  | [] => []

/-- The digit run and optional unit character: `[0-9]+[页章節]?`; requires a
leading digit; on success returns the remainder after the match. -/
def digitsUnit (l : List Char) : Option (List Char) :=
  match l with
  | c :: t =>
    if c.isDigit then
      match (c :: t).dropWhile Char.isDigit with
      | c2 :: t2 => if unitChar c2 then some t2 else some (c2 :: t2)
      | [] => some []
    else none
  | [] => none

/-- Try to complete a `\s*第?[0-9]+[页章節]?` match on the characters after
a dash; on success return the remainder after the match. -/
def afterDash (l : List Char) : Option (List Char) :=
  digitsUnit (dropJie (l.dropWhile isSpaceChar))

theorem dropWhile_length_le (p : Char → Bool) :
    ∀ l : List Char, (l.dropWhile p).length ≤ l.length := by
  intro l
  induction l with
  | nil => simp
  | cons c cs ih =>
    by_cases h : p c
    · simp [List.dropWhile, h]; omega
    · simp [List.dropWhile, h]

theorem dropJie_length_le (l : List Char) : (dropJie l).length ≤ l.length := by
  cases l with
  | nil => simp [dropJie]
  | cons c t => by_cases hc : c = '第' <;> simp [dropJie, hc]

theorem digitsUnit_lt (l r : List Char) (h : digitsUnit l = some r) :
    r.length < l.length := by
  cases l with
  | nil => simp [digitsUnit] at h
  | cons c t =>
    by_cases hd : c.isDigit
    · simp only [digitsUnit, hd, if_true] at h
      have hdrop : ((c :: t).dropWhile Char.isDigit).length < (c :: t).length := by
        simp [List.dropWhile, hd]
        have := dropWhile_length_le Char.isDigit t
        omega
      cases hc3 : (c :: t).dropWhile Char.isDigit with
      | nil =>
        rw [hc3] at h
        simp at h
        subst h
        simp
      | cons c2 t2 =>
        rw [hc3] at h
        rw [hc3] at hdrop
        have h' : (if unitChar c2 = true then some t2 else some (c2 :: t2)) = some r := h
        by_cases hu : unitChar c2 = true
        · rw [if_pos hu] at h'
          cases h'
          simp at hdrop ⊢
          omega
        · rw [if_neg hu] at h'
          cases h'
          simp at hdrop ⊢
          omega
    · simp [digitsUnit, hd] at h

theorem afterDash_lt (l r : List Char) (h : afterDash l = some r) :
    r.length < l.length := by
  unfold afterDash at h
  have h1 := digitsUnit_lt _ r h
  have h2 := dropJie_length_le (l.dropWhile isSpaceChar)
  have h3 := dropWhile_length_le isSpaceChar l
  omega

/-- Fuel-indexed implementation of the dash-pagination removal pass. -/
def sub2F : Nat → List Char → List Char
  | 0, l => l
  | _ + 1, [] => []
  | fuel + 1, c :: cs =>
    if isDash c then
      match afterDash cs with
      | some rest => sub2F fuel rest
      | none => c :: sub2F fuel cs
    else c :: sub2F fuel cs

theorem sub2F_irrel :
    ∀ (f g : Nat) (l : List Char), l.length ≤ f → l.length ≤ g →
      sub2F f l = sub2F g l := by
  intro f
  induction f with
  | zero =>
    intro g l hf _
    have : l = [] := List.eq_nil_of_length_eq_zero (Nat.le_zero.mp hf)
    subst this
    cases g <;> rfl
  | succ n ih =>
    intro g l hf hg
    cases l with
    | nil => cases g <;> rfl
    | cons c cs =>
      cases g with
      | zero => simp at hg
      | succ m =>
        simp only [sub2F]
        cases hd : isDash c with
        | true =>
          simp only [if_true]
          cases hs : afterDash cs with
          | none =>
            have h1 : cs.length ≤ n := by simp at hf; omega
            have h2 : cs.length ≤ m := by simp at hg; omega
            simp only [hs]
            rw [ih m cs h1 h2]
          | some rest =>
            have hr := afterDash_lt cs rest hs
            have h1 : rest.length ≤ n := by simp at hf; omega
            have h2 : rest.length ≤ m := by simp at hg; omega
            simp only [hs]
            rw [ih m rest h1 h2]
        | false =>
          simp only [Bool.false_eq_true, if_false]
          have h1 : cs.length ≤ n := by simp at hf; omega
          have h2 : cs.length ≤ m := by simp at hg; omega
          rw [ih m cs h1 h2]

/-- The dash-pagination removal pass (second `re.sub` of
`clean_chapter_title`). -/
def sub2 (l : List Char) : List Char := sub2F l.length l

theorem sub2_nil : sub2 [] = [] := rfl

theorem sub2_cons_nodash (c : Char) (cs : List Char) (h : isDash c = false) :
    sub2 (c :: cs) = c :: sub2 cs := by
  show sub2F (cs.length + 1) (c :: cs) = c :: sub2F cs.length cs
  simp only [sub2F, h, Bool.false_eq_true, if_false]

theorem sub2_cons_match (c : Char) (cs rest : List Char)
    (h : isDash c = true) (hs : afterDash cs = some rest) :
    sub2 (c :: cs) = sub2 rest := by
  show sub2F (cs.length + 1) (c :: cs) = sub2F rest.length rest
  simp only [sub2F, h, if_true, hs]
  exact sub2F_irrel cs.length rest.length rest
    (Nat.le_of_lt (afterDash_lt cs rest hs)) (Nat.le_refl _)

theorem sub2_cons_nomatch (c : Char) (cs : List Char)
    (h : isDash c = true) (hs : afterDash cs = none) :
    sub2 (c :: cs) = c :: sub2 cs := by
  show sub2F (cs.length + 1) (c :: cs) = c :: sub2F cs.length cs
  simp only [sub2F, h, if_true, hs]

/-- `NovelDownloader.clean_chapter_title` (src lines 19-26): the two
`re.sub` passes followed by `str.strip()`. -/
def clean_chapter_title (s : String) : String :=
  (trimChars (sub2 (sub1 s.data))).asString

/-! ## Substring machinery (Python `in`, `str.replace`, `re.search` of
literal alternations) -/

/-- `isPre pat l`: `pat` is a leading segment of `l`. -/
def isPre : List Char → List Char → Bool
  | [], _ => true
  | _ :: _, [] => false
  | p :: ps, c :: cs => p == c && isPre ps cs

/-- `hasSub pat l`: `pat` occurs as a contiguous run inside `l`
(Python `pat in l`; also `re.search` of a literal). -/
def hasSub (pat : List Char) : List Char → Bool
  | [] => isPre pat []
  | c :: cs => isPre pat (c :: cs) || hasSub pat cs

/-! ## Parsed HTML pages

A `Node` models what the source reads from a BeautifulSoup tree: element
name, `id` attribute, the multi-valued `class` attribute, the `href`
attribute, and children in document order.  `find` is pre-order first
match; `get_text(sep, strip=True)` strips each contained string, drops
the empty ones and joins with the separator; `find_all([names...])` +
`decompose()` removes every descendant element whose tag name is in the
list. -/

inductive Node where
  | text (s : String)
  | elem (name : String) (idAttr : Option String) (classes : List String)
      (href : Option String) (children : List Node)

mutual
def findNode (p : Node → Bool) : Node → Option Node
  | .text _ => none
  | .elem nm i cl h ch =>
    if p (.elem nm i cl h ch) then some (.elem nm i cl h ch)
    else findInList p ch
def findInList (p : Node → Bool) : List Node → Option Node
  | [] => none
  | n :: ns =>
    match findNode p n with
    | some e => some e
    | none => findInList p ns
end

mutual
def textsOf : Node → List String
  | .text s => [s]
  | .elem _ _ _ _ ch => textsList ch
def textsList : List Node → List String
  | [] => []
  | n :: ns => textsOf n ++ textsList ns
end

/-- BeautifulSoup `get_text(sep, strip=True)`. -/
def getTextStrip (sep : String) (n : Node) : String :=
  String.intercalate sep (((textsOf n).map pyStrip).filter (fun s => s != ""))

/-- The argument of `find_all` in `extract_main_content` (src line 62).
`find_all` matches tag NAMES, so the entry `"div.ad"` — evidently meant
as a CSS selector for ad-marked divs — matches only elements literally
named `div.ad`, which normal HTML never produces. -/
def decomposeNames : List String := ["script", "style", "div.ad", "ins", "iframe"]

def isDecomposed : Node → Bool
  | .elem nm _ _ _ _ => decomposeNames.contains nm
  | .text _ => false

mutual
def pruneNode : Node → Node
  | .text s => .text s
  | .elem nm i cl h ch => .elem nm i cl h (pruneList ch)
def pruneList : List Node → List Node
  | [] => []
  | n :: ns => if isDecomposed n then pruneList ns else pruneNode n :: pruneList ns
end

/-! ## `NovelDownloader.extract_main_content` (src lines 45-66) -/

/-- A `soup.find(**selector)` attribute filter: an exact string, or a
compiled alternation of literal words matched with `re.search` (so: any
of the words occurs inside the attribute value). -/
inductive StrPat where
  | exact (s : String)
  | anySub (alts : List String)

def patMatch : StrPat → String → Bool
  | .exact s, t => s == t
  | .anySub alts, t => alts.any (fun a => hasSub a.data t.data)

structure Sel where
  name : String
  idp : Option StrPat
  clsp : Option StrPat

/-- BeautifulSoup tag matching for one selector: the tag name must equal
`name`; an id filter requires the attribute present and matching; a class
filter matches if any single class of the multi-valued attribute
matches. -/
def selMatch (sel : Sel) : Node → Bool
  | .elem nm i cl _ _ =>
    nm == sel.name
    && (match sel.idp with
        | none => true
        | some p => match i with
          | some iv => patMatch p iv
          | none => false)
    && (match sel.clsp with
        | none => true
        | some p => cl.any (patMatch p))
  | .text _ => false

/-- The ordered selector list of `extract_main_content` (src lines 48-56). -/
def selectorList : List Sel :=
  [⟨"div", some (.exact "content"), none⟩,
   ⟨"div", none, some (.exact "content")⟩,
   ⟨"div", some (.exact "chapter-content"), none⟩,
   ⟨"div", none, some (.exact "chapter-content")⟩,
   ⟨"article", none, none⟩,
   ⟨"div", none, some (.anySub ["read", "text", "article"])⟩,
   ⟨"div", some (.anySub ["content", "chapter"]), none⟩]

/-- One iteration of the selector loop: find the first matching element;
if its stripped text length exceeds 100, decompose the unwanted
descendants and serialize with newline separators; otherwise this
selector yields nothing and the loop continues. -/
def trySel (soup : Node) (sel : Sel) : Option String :=
  match findNode (selMatch sel) soup with
  | some e =>
    if 100 < (getTextStrip "" e).length then
      some (getTextStrip "\n" (pruneNode e))
    else none
  | none => none

def firstSome : List (Option String) → Option String
  | [] => none
  | o :: os =>
    match o with
    | some s => some s
    | none => firstSome os

/-- `NovelDownloader.extract_main_content`: first selector whose match
qualifies wins; `None` when none does. -/
def extract_main_content (soup : Node) : Option String :=
  firstSome (selectorList.map (trySel soup))

/-! ## `NovelDownloader.extract_chapter_title` (src lines 28-43) -/

def isNamedTag (nm : String) : Node → Bool
  | .elem n _ _ _ _ => n == nm
  | .text _ => false

def childrenOf : Node → List Node
  | .elem _ _ _ _ ch => ch
  | .text _ => []

/-- The separator class of `re.split(r"[-|_|—]", title)`. -/
def splitSep (c : Char) : Bool := c == '-' || c == '|' || c == '_' || c == '—'

/-- The `<title>` branch and the sentinel: `soup.title` is the first
`title` element; a childless tag is falsy in BeautifulSoup (`Tag.__len__`
is the number of children), so an empty `<title>` falls through to the
sentinel.  Otherwise the text is split before the first `-`/`|`/`_`/`—`,
stripped, and normalized. -/
def titleFallback (soup : Node) : String :=
  match findNode (isNamedTag "title") soup with
  | some tl =>
    if (childrenOf tl).length = 0 then "未命名章节"
    else
      clean_chapter_title
        (pyStrip (((getTextStrip "" tl).data.takeWhile (fun c => !splitSep c)).asString))
  | none => "未命名章节"

/-- `NovelDownloader.extract_chapter_title`: the first `<h1>` wins when
its stripped text is non-empty (the truthiness test is on the RAW text,
before `clean_chapter_title`), else the document `<title>`, else the
sentinel `"未命名章节"`. -/
def extract_chapter_title (soup : Node) : String :=
  match findNode (isNamedTag "h1") soup with
  | some h1 =>
    if getTextStrip "" h1 != "" then clean_chapter_title (getTextStrip "" h1)
    else titleFallback soup
  | none => titleFallback soup

/-! ## `NovelDownloader.extract_next_page` (src lines 68-93)

Stage 1 searches for an anchor whose `.string` matches
`re.compile(f"^{keyword}$", re.IGNORECASE)`; stage 2 for an anchor with
one of three exact class names; stage 3 rewrites a `page=<digits>` or
`p=<digits>` pattern in the URL itself via `str.replace` — a GLOBAL
substring replacement.  In stages 1 and 2 a found anchor is used only if
it is truthy (has children) and its `href` is present and non-empty;
otherwise the loop moves on to the next keyword / class name. -/

/-- BeautifulSoup `tag.string` as used here: the tag's single contained
string (present when the tag has exactly one child and it is a text
node). -/
def anchorString : Node → Option String
  | .elem _ _ _ _ [.text s] => some s
  | _ => none

/-- ASCII-case-insensitive whole-string equality: the effect of
`re.compile(f"^{kw}$", re.IGNORECASE).search(s)` for the literal
keywords used. -/
def ciEqStr (s t : String) : Bool :=
  (s.data.map Char.toLower) == (t.data.map Char.toLower)

def hrefOf : Node → Option String
  | .elem _ _ _ h _ => h
  | .text _ => none

/-- `if next_link and next_link.get("href"): return next_link["href"]`:
the anchor must be truthy (childless tags are falsy) and carry a
non-empty `href`. -/
def anchorResult (n : Node) : Option String :=
  if (childrenOf n).length = 0 then none
  else
    match hrefOf n with
    | some h => if h != "" then some h else none
    | none => none

def nextKeywords : List String := ["下一页", "下一章", "下一节", "下一頁", "Next", ">", "›"]

def kwAnchorPred (kw : String) (n : Node) : Bool :=
  isNamedTag "a" n &&
    (match anchorString n with
     | some s => ciEqStr s kw
     | none => false)

def kwStage : List String → Node → Option String
  | [], _ => none
  | kw :: rest, soup =>
    match findNode (kwAnchorPred kw) soup with
    | some a =>
      match anchorResult a with
      | some h => some h
      | none => kwStage rest soup
    | none => kwStage rest soup

def nextClassNames : List String := ["next", "next-page", "pagination-next"]

def classAnchorPred (cn : String) (n : Node) : Bool :=
  isNamedTag "a" n &&
    (match n with
     | .elem _ _ cl _ _ => cl.contains cn
     | .text _ => false)

def classStage : List String → Node → Option String
  | [], _ => none
  | cn :: rest, soup =>
    match findNode (classAnchorPred cn) soup with
    | some a =>
      match anchorResult a with
      | some h => some h
      | none => classStage rest soup
    | none => classStage rest soup

/-- The maximal digit run at the head of a list and the remainder. -/
def digitsRun : List Char → List Char × List Char
  | [] => ([], [])
  | c :: cs =>
    if c.isDigit then
      ((digitsRun cs).1.cons c, (digitsRun cs).2)
    else ([], c :: cs)

/-- The `p=<digits>` alternative of `re.search(r"(page|p)=(\d+)", url,
re.IGNORECASE)` at the current position: key group and digit group plus
the remainder after the match. -/
def keyDigitsP (l : List Char) : Option (List Char × List Char × List Char) :=
  match l with
  | c1 :: c2 :: rest =>
    if c1.toLower = 'p' ∧ c2 = '=' then
      match rest with
      | c3 :: _ =>
        if c3.isDigit then some ([c1], (digitsRun rest).1, (digitsRun rest).2)
        else none
      | [] => none
    else none
  | _ => none

/-- Both alternatives at the current position, `page` preferred. -/
def keyDigits (l : List Char) : Option (List Char × List Char × List Char) :=
  match l with
  | c1 :: c2 :: c3 :: c4 :: c5 :: rest =>
    if c1.toLower = 'p' ∧ c2.toLower = 'a' ∧ c3.toLower = 'g' ∧ c4.toLower = 'e' ∧ c5 = '=' then
      match rest with
      | c6 :: _ =>
        if c6.isDigit then some ([c1, c2, c3, c4], (digitsRun rest).1, (digitsRun rest).2)
        else keyDigitsP l
      | [] => keyDigitsP l
    else keyDigitsP l
  | _ => keyDigitsP l

/-- `re.search`: the leftmost position where `(page|p)=(\d+)` matches;
returns (characters before the match, key group, digit group, characters
after the match). -/
def searchKD : List Char → Option (List Char × List Char × List Char × List Char)
  | [] => none
  | c :: cs =>
    match keyDigits (c :: cs) with
    | some (k, d, r) => some ([], k, d, r)
    | none =>
      match searchKD cs with
      | some (a, k, d, r) => some (c :: a, k, d, r)
      | none => none

/-- `int(...)` on a digit group. -/
def digitsToNat (d : List Char) : Nat :=
  d.foldl (fun n c => n * 10 + (c.toNat - 48)) 0

/-- `str(...)` of a number (decimal, no leading zeros). -/
def natDigits (n : Nat) : List Char := (Nat.repr n).data

/-- Fuel-indexed implementation of Python `str.replace` (all
non-overlapping occurrences, left to right). -/
def replaceAllF (pat rep : List Char) : Nat → List Char → List Char
  | 0, l => l
  | _ + 1, [] => []
  | fuel + 1, c :: cs =>
    if 0 < pat.length ∧ isPre pat (c :: cs) = true then
      rep ++ replaceAllF pat rep fuel (cs.drop (pat.length - 1))
    else c :: replaceAllF pat rep fuel cs

theorem replaceAllF_irrel (pat rep : List Char) :
    ∀ (f g : Nat) (l : List Char), l.length ≤ f → l.length ≤ g →
      replaceAllF pat rep f l = replaceAllF pat rep g l := by
  intro f
  induction f with
  | zero =>
    intro g l hf _
    have : l = [] := List.eq_nil_of_length_eq_zero (Nat.le_zero.mp hf)
    subst this
    cases g <;> rfl
  | succ n ih =>
    intro g l hf hg
    cases l with
    | nil => cases g <;> rfl
    | cons c cs =>
      cases g with
      | zero => simp at hg
      | succ m =>
        simp only [replaceAllF]
        by_cases hp : 0 < pat.length ∧ isPre pat (c :: cs) = true
        · rw [if_pos hp, if_pos hp]
          have hd : (cs.drop (pat.length - 1)).length ≤ cs.length := by
            simp [List.length_drop]
          have h1 : (cs.drop (pat.length - 1)).length ≤ n := by simp at hf; omega
          have h2 : (cs.drop (pat.length - 1)).length ≤ m := by simp at hg; omega
          rw [ih m _ h1 h2]
        · rw [if_neg hp, if_neg hp]
          have h1 : cs.length ≤ n := by simp at hf; omega
          have h2 : cs.length ≤ m := by simp at hg; omega
          rw [ih m cs h1 h2]

/-- Python `str.replace(pat, rep)` over character lists. -/
def replaceAll (pat rep l : List Char) : List Char := replaceAllF pat rep l.length l

theorem replaceAll_nil (pat rep : List Char) : replaceAll pat rep [] = [] := rfl

theorem replaceAll_cons_hit (pat rep : List Char) (c : Char) (cs : List Char)
    (hne : 0 < pat.length) (hp : isPre pat (c :: cs) = true) :
    replaceAll pat rep (c :: cs) = rep ++ replaceAll pat rep (cs.drop (pat.length - 1)) := by
  show replaceAllF pat rep (cs.length + 1) (c :: cs) = _
  simp only [replaceAllF]
  rw [if_pos ⟨hne, hp⟩]
  have hd : (cs.drop (pat.length - 1)).length ≤ cs.length := by
    simp [List.length_drop]
  exact congrArg _ (replaceAllF_irrel pat rep cs.length _ _ (by omega) (Nat.le_refl _))

theorem replaceAll_cons_miss (pat rep : List Char) (c : Char) (cs : List Char)
    (hp : ¬(0 < pat.length ∧ isPre pat (c :: cs) = true)) :
    replaceAll pat rep (c :: cs) = c :: replaceAll pat rep cs := by
  show replaceAllF pat rep (cs.length + 1) (c :: cs) = _
  simp only [replaceAllF]
  rw [if_neg hp]
  rfl

/-- Stage 3 of `extract_next_page` (src lines 83-92): when the lowered
URL contains `"page"` and `(page|p)=(\d+)` matches, replace every
occurrence of the matched `key=digits` substring by `key=digits+1`. -/
def urlPatternNext (url : String) : Option String :=
  if hasSub ['p', 'a', 'g', 'e'] (url.data.map Char.toLower) then
    match searchKD url.data with
    | some (_, k, d, _) =>
      some ((replaceAll (k ++ '=' :: d) (k ++ '=' :: natDigits (digitsToNat d + 1))
              url.data).asString)
    | none => none
  else none

/-- `NovelDownloader.extract_next_page`. -/
def extract_next_page (soup : Node) (url : String) : Option String :=
  match kwStage nextKeywords soup with
  | some h => some h
  | none =>
    match classStage nextClassNames soup with
    | some h => some h
    | none => urlPatternNext url

/-! ## The pagination walker:
`NovelDownloader.process_page` (src lines 95-137) and
`NovelDownloader.download_novel` (src lines 152-164).

`process_page` returns `True` (URL already visited), `False` (fetch
error or no content), `None` or a string (the resolved next link); the
`while current_url:` loop in `download_novel` tests plain Python
truthiness of whichever value came back, and passes that value to
`process_page` as the next `url` argument.  `PyVal` captures exactly
those values and their truthiness.

The network and the HTML pipeline behind one `session.get` are
abstracted into an oracle `w : String → Outcome`: `fetchErr` for a
raising fetch (network failure, timeout, invalid argument), otherwise
the response's HTTP status together with the values
`extract_chapter_title`, `extract_main_content` and `extract_next_page`
produce on the parsed body.  The source never reads the status code.
Calling `session.get` on a non-string (the `True` returned by the
visited-set check) raises inside `requests`.  `urljoin` is a further
oracle `join`.  The output file is the list of written chunks; console
prints and the `session.get` calls are recorded as `Event`s. -/

inductive PyVal where
  | pyBool (b : Bool)
  | pyNone
  | pyStr (s : String)
deriving DecidableEq, Repr

/-- Python truthiness of a `process_page` result / loop variable. -/
def truthy : PyVal → Bool
  | .pyBool b => b
  | .pyNone => false
  | .pyStr s => s != ""

inductive Outcome where
  | fetchErr
  | page (status : Nat) (title : String) (content : Option String) (next : Option String)
deriving DecidableEq, Repr

inductive Event where
  | fetchAttempt (v : PyVal)
  | fetchError (v : PyVal)
  | noContent (u : String)
deriving DecidableEq, Repr

structure DState where
  visited : List PyVal
  current : Option String
  content : List String
  count : Nat
deriving DecidableEq, Repr

def initState : DState := ⟨[], none, [], 0⟩

/-- `next_page.startswith(("http://", "https://"))`. -/
def goodUrl (s : String) : Bool :=
  isPre "http://".data s.data || isPre "https://".data s.data

/-- `NovelDownloader.save_current_chapter` (src lines 139-150): appends
`title\n` then the fragment concatenation plus `\n`; a no-op when
`current_chapter` is falsy (`None` or the empty string) or the fragment
list is empty.  It does NOT clear the fragment list. -/
def save_current_chapter (st : DState) (file : List String) : List String :=
  match st.current with
  | none => file
  | some t =>
    if t = "" then file
    else if st.content = [] then file
    else file ++ [t ++ "\n" ++ String.join st.content ++ "\n"]

structure StepRes where
  st : DState
  file : List String
  ret : PyVal
  evs : List Event
deriving DecidableEq, Repr

/-- `NovelDownloader.process_page`. -/
def process_page (w : String → Outcome) (join : String → String → String)
    (st : DState) (url : PyVal) (file : List String) : StepRes :=
  if url ∈ st.visited then ⟨st, file, .pyBool true, []⟩
  else
    let st1 : DState := {st with visited := url :: st.visited}
    match url with
    | .pyStr u =>
      match w u with
      | .fetchErr => ⟨st1, file, .pyBool false, [.fetchAttempt url, .fetchError url]⟩
      | .page _ t c n =>
        match c with
        | none => ⟨st1, file, .pyBool false, [.fetchAttempt url, .noContent u]⟩
        | some body =>
          if body = "" then ⟨st1, file, .pyBool false, [.fetchAttempt url, .noContent u]⟩
          else
            let stf : DState × List String :=
              if some t ≠ st1.current then
                ({st1 with current := some t, content := [], count := st1.count + 1},
                 save_current_chapter st1 file)
              else (st1, file)
            let st3 : DState := {stf.1 with content := stf.1.content ++ [body]}
            let nx : PyVal :=
              match n with
              | none => .pyNone
              | some link =>
                .pyStr (if link ≠ "" ∧ goodUrl link = false then join u link else link)
            ⟨st3, stf.2, nx, [.fetchAttempt url]⟩
    | _ => ⟨st1, file, .pyBool false, [.fetchAttempt url, .fetchError url]⟩

structure RunRes where
  st : DState
  file : List String
  evs : List Event
deriving DecidableEq, Repr

/-- The `while current_url:` loop of `download_novel`, with fuel (the
Python loop can diverge on an infinite chain; every theorem below
supplies enough fuel for the walk it talks about). -/
def download_loop (w : String → Outcome) (join : String → String → String) :
    Nat → DState → List String → PyVal → RunRes
  | 0, st, file, _ => ⟨st, file, []⟩
  | fuel + 1, st, file, v =>
    if truthy v then
      let r := process_page w join st v file
      let r2 := download_loop w join fuel r.st r.file r.ret
      ⟨r2.st, r2.file, r.evs ++ r2.evs⟩
    else ⟨st, file, []⟩

/-- `NovelDownloader.download_novel`: truncate the output file, run the
loop from the start URL, then flush the still-open chapter once. -/
def download_novel (w : String → Outcome) (join : String → String → String)
    (fuel : Nat) (start : String) : RunRes :=
  ⟨(download_loop w join fuel initState [] (.pyStr start)).st,
   save_current_chapter (download_loop w join fuel initState [] (.pyStr start)).st
     (download_loop w join fuel initState [] (.pyStr start)).file,
   (download_loop w join fuel initState [] (.pyStr start)).evs⟩

/-- The file effect of `main`'s `except KeyboardInterrupt` handler (src
lines 209-210): the handler prints `"用户中断，正在保存已下载内容..."`
and falls into the `finally` print — it performs no file operation, so
the open chapter held in the downloader state is not written. -/
def kbInterruptFile (_st : DState) (file : List String) : List String := file

/-! ## Chapter grouping, stated from the specification's words

A walk over a sequence of pages is a world that serves those pages in a
chain (`chainAt`); the spec says consecutive pages with equal extracted
titles form one chapter whose flushed block is
`title ++ "\n" ++ concatenated contents ++ "\n"`. -/

def blockOf (g : String × List String) : String :=
  g.1 ++ "\n" ++ String.join g.2 ++ "\n"

/-- Prepend a chapter (title `t`, fragments `acc`) to a grouped list,
merging with the first group when the titles agree. -/
def mergeHead (t : String) (acc : List String) :
    List (String × List String) → List (String × List String)
  | (t2, cs) :: g => if t2 = t then (t, acc ++ cs) :: g else (t, acc) :: (t2, cs) :: g
  | [] => [(t, acc)]

/-- Group consecutive pages with equal titles into chapters. -/
def chunkBy : List (String × String) → List (String × List String)
  | [] => []
  | (t, c) :: rest => mergeHead t [c] (chunkBy rest)

/-- The chapter blocks the spec predicts for a page sequence. -/
def groupBlocks (l : List (String × String)) : List String :=
  (chunkBy l).map blockOf

/-! ## The pure shape of the walk over a successful chain -/

/-- The file delta of one `save_current_chapter` call. -/
def flushOf : Option String → List String → List String
  | none, _ => []
  | some t, acc =>
    if t = "" then [] else if acc = [] then []
    else [t ++ "\n" ++ String.join acc ++ "\n"]

theorem save_eq_flush (st : DState) (file : List String) :
    save_current_chapter st file = file ++ flushOf st.current st.content := by
  unfold save_current_chapter flushOf
  cases st.current with
  | none => simp
  | some t =>
    by_cases ht : t = ""
    · simp [ht]
    · by_cases hc : st.content = [] <;> simp [ht, hc]

/-- Blocks written DURING the loop while consuming the (title, content)
pairs, starting from an open chapter `cur` with fragments `acc`. -/
def stepBlocks : Option String → List String → List (String × String) → List String
  | _, _, [] => []
  | cur, acc, (t, c) :: rest =>
    if some t = cur then stepBlocks cur (acc ++ [c]) rest
    else flushOf cur acc ++ stepBlocks (some t) [c] rest

/-- The open chapter title after the loop. -/
def finalCur : Option String → List (String × String) → Option String
  | cur, [] => cur
  | _, (t, _) :: rest => finalCur (some t) rest

/-- The open chapter's fragments after the loop. -/
def finalAcc : Option String → List String → List (String × String) → List String
  | _, acc, [] => acc
  | cur, acc, (t, c) :: rest =>
    if some t = cur then finalAcc cur (acc ++ [c]) rest
    else finalAcc (some t) [c] rest

/-- The chapter counter after the loop. -/
def finalCount : Option String → Nat → List (String × String) → Nat
  | _, k, [] => k
  | cur, k, (t, _) :: rest =>
    if some t = cur then finalCount cur k rest
    else finalCount (some t) (k + 1) rest

/-- One page of a chain walk: its URL and the title and content the
extractors produce for it. -/
structure PageSpec where
  url : String
  title : String
  content : String

def nextUrlOf : List PageSpec → Option String
  | [] => none
  | q :: _ => some q.url

/-- `w` serves the pages of `ps` as a chain: each page fetches
successfully with its title and content, and its next link resolves to
the following page's URL (absent for the last page). -/
def chainAt (w : String → Outcome) : List PageSpec → Prop
  | [] => True
  | p :: rest =>
    w p.url = .page 200 p.title (some p.content) (nextUrlOf rest) ∧ chainAt w rest

/-- The loop variable that makes the walk enter the chain. -/
def startVal : List PageSpec → PyVal
  | [] => .pyNone
  | p :: _ => .pyStr p.url

def pairsOf (ps : List PageSpec) : List (String × String) :=
  ps.map (fun p => (p.title, p.content))

def revUrls (ps : List PageSpec) : List PyVal :=
  (ps.map (fun p => PyVal.pyStr p.url)).reverse

theorem goodUrl_ne (s : String) (h : goodUrl s = true) : s ≠ "" := by
  intro he
  subst he
  exact absurd h (by decide)

/-- The walk over a chain of pages, from an arbitrary mid-walk state:
the loop appends exactly the blocks `stepBlocks` describes, and leaves
the chapter state `finalCur`/`finalAcc`/`finalCount` describe. -/
theorem chain_loop (w : String → Outcome) (join : String → String → String) :
    ∀ (ps : List PageSpec) (fuel : Nat) (st : DState) (file : List String),
      chainAt w ps →
      (∀ p ∈ ps, PyVal.pyStr p.url ∉ st.visited) →
      (ps.map PageSpec.url).Nodup →
      (∀ p ∈ ps, p.title ≠ "" ∧ p.content ≠ "" ∧ goodUrl p.url = true) →
      ps.length < fuel →
      download_loop w join fuel st file (startVal ps) =
        ⟨⟨revUrls ps ++ st.visited,
          finalCur st.current (pairsOf ps),
          finalAcc st.current st.content (pairsOf ps),
          finalCount st.current st.count (pairsOf ps)⟩,
         file ++ stepBlocks st.current st.content (pairsOf ps),
         ps.map (fun p => .fetchAttempt (.pyStr p.url))⟩ := by
  intro ps
  induction ps with
  | nil =>
    intro fuel st file _ _ _ _ hfuel
    cases fuel with
    | zero => omega
    | succ n =>
      simp [download_loop, startVal, truthy, revUrls, pairsOf, stepBlocks,
        finalCur, finalAcc, finalCount]
  | cons p rest ih =>
    intro fuel st file hchain hv hnodup hprops hfuel
    cases fuel with
    | zero => omega
    | succ n =>
      have hpp := hprops p (List.mem_cons_self p rest)
      have hne : p.url ≠ "" := goodUrl_ne p.url hpp.2.2
      have hw : w p.url = .page 200 p.title (some p.content) (nextUrlOf rest) := hchain.1
      have hvp : PyVal.pyStr p.url ∉ st.visited := hv p (List.mem_cons_self p rest)
      simp only [download_loop, startVal]
      rw [if_pos (by simp [truthy, hne])]
      simp only [process_page]
      rw [if_neg hvp]
      simp only [hw]
      rw [if_neg hpp.2.1]
      have hnx :
          (match nextUrlOf rest with
            | none => PyVal.pyNone
            | some link =>
              PyVal.pyStr (if link ≠ "" ∧ goodUrl link = false then join p.url link else link)) =
          startVal rest := by
        cases rest with
        | nil => rfl
        | cons q rest2 =>
          have hq := (hprops q (by simp)).2.2
          simp only [nextUrlOf, startVal]
          rw [if_neg (by simp [hq])]
      have hvisited : ∀ q ∈ rest, PyVal.pyStr q.url ∉ PyVal.pyStr p.url :: st.visited := by
        intro q hq
        simp only [List.mem_cons]
        push_neg
        constructor
        · have : q.url ≠ p.url := by
            have hnd := (List.nodup_cons.mp hnodup).1
            intro he
            exact hnd (by rw [← he]; exact List.mem_map_of_mem PageSpec.url hq)
          simp [this]
        · exact hv q (List.mem_cons_of_mem p hq)
      have hnodup2 : (rest.map PageSpec.url).Nodup := (List.nodup_cons.mp hnodup).2
      have hprops2 : ∀ q ∈ rest, q.title ≠ "" ∧ q.content ≠ "" ∧ goodUrl q.url = true :=
        fun q hq => hprops q (List.mem_cons_of_mem p hq)
      have hfuel2 : rest.length < n := by simp at hfuel; omega
      by_cases hb : some p.title = st.current
      · rw [if_neg (by simp [hb])]
        simp only [hnx]
        rw [ih n ⟨PyVal.pyStr p.url :: st.visited, st.current, st.content ++ [p.content], st.count⟩
          file (hchain.2) hvisited hnodup2 hprops2 hfuel2]
        simp only [pairsOf, List.map_cons, stepBlocks, finalCur, finalAcc, finalCount,
          if_pos hb, hb, revUrls, List.reverse_cons, List.map_map]
        simp [RunRes.mk.injEq, DState.mk.injEq]
      · rw [if_pos hb]
        simp only [hnx, save_eq_flush, List.nil_append]
        rw [ih n ⟨PyVal.pyStr p.url :: st.visited, some p.title, [p.content], st.count + 1⟩
          (file ++ flushOf st.current st.content) (hchain.2) hvisited hnodup2 hprops2 hfuel2]
        simp only [pairsOf, List.map_cons, stepBlocks, finalCur, finalAcc, finalCount,
          if_neg hb, revUrls, List.reverse_cons, List.map_map]
        simp [RunRes.mk.injEq, DState.mk.injEq]

theorem mergeHead_merge (t : String) (acc : List String) (c : String)
    (g : List (String × List String)) :
    mergeHead t acc (mergeHead t [c] g) = mergeHead t (acc ++ [c]) g := by
  cases g with
  | nil => simp [mergeHead]
  | cons hd g2 =>
    obtain ⟨t3, cs⟩ := hd
    by_cases h3 : t3 = t
    · subst h3
      simp [mergeHead, List.append_assoc]
    · simp [mergeHead, h3]

theorem mergeHead_ne (t t2 : String) (acc : List String) (c : String)
    (g : List (String × List String)) (h : t2 ≠ t) :
    mergeHead t acc (mergeHead t2 [c] g) = (t, acc) :: mergeHead t2 [c] g := by
  cases g with
  | nil => simp [mergeHead, h]
  | cons hd g2 =>
    obtain ⟨t3, cs⟩ := hd
    by_cases h3 : t3 = t2
    · subst h3
      simp [mergeHead, h]
    · simp [mergeHead, h3, h]

/-- The blocks still to be written once the loop reaches its end — the
blocks flushed while consuming `pairs` plus the final flush — are
exactly the grouped blocks, with the head group continuing the open
chapter. -/
theorem tail_blocks_eq :
    ∀ (pairs : List (String × String)) (t : String) (acc : List String),
      t ≠ "" → acc ≠ [] → (∀ q ∈ pairs, q.1 ≠ "") →
      stepBlocks (some t) acc pairs ++
        flushOf (finalCur (some t) pairs) (finalAcc (some t) acc pairs) =
      (mergeHead t acc (chunkBy pairs)).map blockOf := by
  intro pairs
  induction pairs with
  | nil =>
    intro t acc ht hacc _
    simp [stepBlocks, finalCur, finalAcc, flushOf, ht, hacc, mergeHead, chunkBy, blockOf]
  | cons q rest ih =>
    intro t acc ht hacc hq
    obtain ⟨t2, c⟩ := q
    have ht2 : t2 ≠ "" := hq (t2, c) (List.mem_cons_self _ _)
    have hqr : ∀ r ∈ rest, r.1 ≠ "" := fun r hr => hq r (List.mem_cons_of_mem _ hr)
    by_cases h2 : t2 = t
    · subst h2
      simp only [stepBlocks, finalCur, finalAcc, if_pos rfl, if_true, chunkBy]
      rw [ih t2 (acc ++ [c]) ht2 (by simp) hqr]
      rw [mergeHead_merge]
    · have hne : ¬(some t2 = some t) := by simp [h2]
      simp only [stepBlocks, finalCur, finalAcc, if_neg hne, chunkBy]
      rw [List.append_assoc]
      rw [ih t2 [c] ht2 (by simp) hqr]
      rw [mergeHead_ne t t2 acc c (chunkBy rest) h2]
      simp only [List.map_cons, flushOf, if_neg ht, if_neg hacc, blockOf]
      rfl

/-! ## Example pages for the walker claims -/

def exPage1 : PageSpec := ⟨"http://ex/1", "Chapter 1", "AAA"⟩

def exPage2 : PageSpec := ⟨"http://ex/2", "Chapter 1", "BBB"⟩

def exPage3 : PageSpec := ⟨"http://ex/3", "Chapter 2", "CCC"⟩

/-- A three-page world: page1 and page2 share the title "Chapter 1",
page3 has title "Chapter 2" and no next link. -/
def exWorld : String → Outcome := fun u =>
  if u = "http://ex/1" then .page 200 "Chapter 1" (some "AAA") (some "http://ex/2")
  else if u = "http://ex/2" then .page 200 "Chapter 1" (some "BBB") (some "http://ex/3")
  else if u = "http://ex/3" then .page 200 "Chapter 2" (some "CCC") none
  else .fetchErr

def exJoin : String → String → String := fun _ l => l

/-- C1: Chapter grouping end-to-end.  For every walk over a chain of
pages (distinct absolute URLs, non-empty extracted titles and contents),
the output file consists of exactly one block per run of consecutive
pages with equal titles, each block being the title, a newline, the
contents concatenated in fetch order with no separator, and a trailing
newline; a differently-titled page flushes the open chapter first and
starts a new one. -/
theorem chapter_grouping (w : String → Outcome) (join : String → String → String)
    (fuel : Nat) (p0 : PageSpec) (rest : List PageSpec)
    (hchain : chainAt w (p0 :: rest))
    (hnodup : ((p0 :: rest).map PageSpec.url).Nodup)
    (hprops : ∀ p ∈ p0 :: rest, p.title ≠ "" ∧ p.content ≠ "" ∧ goodUrl p.url = true)
    (hfuel : (p0 :: rest).length < fuel) :
    (download_novel w join fuel p0.url).file = groupBlocks (pairsOf (p0 :: rest)) := by
  unfold download_novel
  have h := chain_loop w join (p0 :: rest) fuel initState [] hchain
    (by simp [initState]) hnodup hprops hfuel
  rw [show (PyVal.pyStr p0.url) = startVal (p0 :: rest) from rfl, h]
  rw [save_eq_flush]
  have hp0 := hprops p0 (List.mem_cons_self p0 rest)
  have hpr : ∀ q ∈ pairsOf rest, q.1 ≠ "" := by
    intro q hq
    obtain ⟨p, hp, rfl⟩ := List.mem_map.mp hq
    exact (hprops p (List.mem_cons_of_mem p0 hp)).1
  simp only [pairsOf, List.map_cons, initState] at hpr ⊢
  simp only [stepBlocks, finalCur, finalAcc]
  rw [if_neg (by simp)]
  rw [if_neg (by simp)]
  rw [show flushOf none ([] : List String) = [] from rfl]
  simp only [List.nil_append]
  rw [tail_blocks_eq (List.map (fun p => (p.title, p.content)) rest) p0.title [p0.content]
    hp0.1 (by simp) hpr]
  rfl

/-- Witness for C1: the spec's own three-page example yields exactly the
blocks "Chapter 1\nAAABBB\n" then "Chapter 2\nCCC\n". -/
theorem chapter_grouping_witness :
    (download_novel exWorld exJoin 10 "http://ex/1").file =
      ["Chapter 1\nAAABBB\n", "Chapter 2\nCCC\n"] := by
  have h := chapter_grouping exWorld exJoin 10 exPage1 [exPage2, exPage3]
    ⟨rfl, rfl, rfl, trivial⟩ (by decide) (by decide) (by decide)
  exact h.trans (by decide)

/-- Ending the loop on a falsy value consumes nothing. -/
theorem download_loop_falsy (w : String → Outcome) (join : String → String → String)
    (fuel : Nat) (st : DState) (file : List String) (v : PyVal)
    (h : truthy v = false) :
    download_loop w join fuel st file v = ⟨st, file, []⟩ := by
  cases fuel with
  | zero => rfl
  | succ n =>
    simp only [download_loop]
    rw [if_neg (by simp [h])]

/-- C9 (amended): a RAISING fetch (network failure, timeout, invalid
argument) on an unvisited URL is logged with that URL and ends the walk
at once: exactly one fetch attempt, no retry, the file and the open
chapter untouched, no further iteration. -/
theorem fetch_error_terminates (w : String → Outcome) (join : String → String → String)
    (fuel : Nat) (st : DState) (file : List String) (u : String)
    (hv : PyVal.pyStr u ∉ st.visited) (hw : w u = .fetchErr) (hu : u ≠ "") :
    download_loop w join (fuel + 1) st file (.pyStr u) =
      ⟨{st with visited := .pyStr u :: st.visited}, file,
       [.fetchAttempt (.pyStr u), .fetchError (.pyStr u)]⟩ := by
  simp only [download_loop]
  rw [if_pos (by simp [truthy, hu])]
  simp only [process_page]
  rw [if_neg hv]
  simp only [hw]
  rw [download_loop_falsy w join fuel _ _ (.pyBool false) (by rfl)]
  simp

/-- A world in which every fetch raises. -/
def errWorld : String → Outcome := fun _ => .fetchErr

/-- Witness for C9's amended theorem at a concrete world and state. -/
theorem fetch_error_terminates_witness :
    download_loop errWorld exJoin 3 initState [] (.pyStr "http://ex/bad") =
      ⟨⟨[.pyStr "http://ex/bad"], none, [], 0⟩, [],
       [.fetchAttempt (.pyStr "http://ex/bad"), .fetchError (.pyStr "http://ex/bad")]⟩ := by
  have h := fetch_error_terminates errWorld exJoin 2 initState [] "http://ex/bad"
    (by decide) rfl (by decide)
  exact h.trans (by decide)

/-- A world whose only page answers with HTTP status 404 and a parseable
body. -/
def err404World : String → Outcome := fun u =>
  if u = "http://ex/e" then .page 404 "T" (some "BODY") none else .fetchErr

/-- C9 (counterexample): the source never inspects the HTTP status code
— `session.get` does not raise on a non-2xx response and
`raise_for_status` is never called — so a 404 page's body is extracted,
appended to the open chapter and flushed like any other page, with no
error logged (no `fetchError` event), contradicting the claim that a
non-2xx response is logged and terminates the walk with no content
used. -/
theorem status_ignored_cex :
    download_novel err404World exJoin 5 "http://ex/e" =
      ⟨⟨[.pyStr "http://ex/e"], some "T", ["BODY"], 1⟩, ["T\nBODY\n"],
       [.fetchAttempt (.pyStr "http://ex/e")]⟩ := by decide

/-- A world whose page's next link points back at itself. -/
def loopWorld : String → Outcome := fun u =>
  if u = "http://ex/a" then .page 200 "T" (some "X") (some "http://ex/a") else .fetchErr

/-- C2: the full trace on a self-loop.  The cycle IS detected (the
visited URL is never fetched twice: exactly one `fetchAttempt` carries
it, and the chapter is flushed once) — but the visited-set check returns
`True`, the `while current_url:` loop treats `True` as the next URL and
runs one further iteration, whose `session.get(True)` raises and is
logged (`fetchError (pyBool true)`) before the walk ends.  The claimed
silent, iteration-free termination does not happen. -/
theorem cycle_guard_trace :
    download_novel loopWorld exJoin 6 "http://ex/a" =
      ⟨⟨[.pyBool true, .pyStr "http://ex/a"], some "T", ["X"], 1⟩, ["T\nX\n"],
       [.fetchAttempt (.pyStr "http://ex/a"), .fetchAttempt (.pyBool true),
        .fetchError (.pyBool true)]⟩ := by decide

/-- C3: the `except KeyboardInterrupt` handler of `main` only prints; it
never calls `save_current_chapter`, so an open chapter with accumulated
fragments is dropped on interrupt even though a flush at that point
would have written it. -/
theorem interrupt_drops_fragments :
    kbInterruptFile ⟨[], some "T", ["ABC"], 1⟩ [] = [] ∧
    save_current_chapter ⟨[], some "T", ["ABC"], 1⟩ [] = ["T\nABC\n"] := by
  exact ⟨rfl, by decide⟩

/-- A state with an open chapter and one fragment. -/
def sinkSt : DState := ⟨[], some "T", ["X"], 1⟩

/-- C6 (counterexample): `save_current_chapter` does not clear the
fragment list, so calling it twice in a row on a state with an open
chapter and fragments writes the same chapter block twice — the second
call is NOT a no-op. -/
theorem sink_double_write :
    save_current_chapter sinkSt (save_current_chapter sinkSt []) = ["T\nX\n", "T\nX\n"] ∧
    save_current_chapter sinkSt [] = ["T\nX\n"] := by decide

/-- C6 (amended): the sink is a no-op exactly in the falsy cases — no
open chapter, an empty (falsy) title, or an empty fragment list — and
only then is a repeated call harmless.  (In the program the caller,
`process_page`, resets `chapter_content` to `[]` right after each flush,
which is what makes the later calls no-ops.) -/
theorem sink_noop (st : DState) (file : List String)
    (h : st.current = none ∨ st.current = some "" ∨ st.content = []) :
    save_current_chapter st file = file ∧
    save_current_chapter st (save_current_chapter st file) = save_current_chapter st file := by
  have hnoop : ∀ f : List String, save_current_chapter st f = f := by
    intro f
    unfold save_current_chapter
    rcases h with h | h | h
    · rw [h]
    · rw [h]
      simp
    · rw [h]
      cases st.current with
      | none => rfl
      | some t => by_cases ht : t = "" <;> simp [ht]
  exact ⟨hnoop file, hnoop _⟩

/-- Witness for C6's amended theorem: a cleared chapter (fragments
emptied by the caller) is saved twice with no effect. -/
theorem sink_noop_witness :
    save_current_chapter ⟨[], some "T", [], 1⟩ ["T\nX\n"] = ["T\nX\n"] ∧
    save_current_chapter ⟨[], some "T", [], 1⟩
        (save_current_chapter ⟨[], some "T", [], 1⟩ ["T\nX\n"]) =
      save_current_chapter ⟨[], some "T", [], 1⟩ ["T\nX\n"] :=
  sink_noop ⟨[], some "T", [], 1⟩ ["T\nX\n"] (Or.inr (Or.inr rfl))

/-! ## Example parsed pages for the extractor claims -/

def h1Node : Node := .elem "h1" none [] none [.text "(1)"]

def titleNode : Node := .elem "title" none [] none [.text "REAL - site"]

def exTitleSoup : Node := .elem "[document]" none [] none [h1Node, titleNode]

/-- C7 (counterexample): a page whose `<h1>` text `"(1)"` is pure
bracket markup.  The raw text is non-empty, so the `<h1>` heuristic is
taken and its normalized result — the empty string — is returned
directly; the extractor does NOT fall through to the document-title
heuristic (which would have produced `"REAL"`), and it does return the
empty string. -/
theorem title_empty_cex :
    extract_chapter_title exTitleSoup = "" ∧ titleFallback exTitleSoup = "REAL" := by decide

/-- C7 (amended): the fall-through test is on the RAW `<h1>` text.
Whenever the first `<h1>`'s stripped text is non-empty the extractor
returns its normalization — even when that normalization is empty — and
the later heuristics are not consulted. -/
theorem title_h1_no_fallthrough (soup e : Node)
    (hfind : findNode (isNamedTag "h1") soup = some e)
    (hne : getTextStrip "" e ≠ "") :
    extract_chapter_title soup = clean_chapter_title (getTextStrip "" e) := by
  unfold extract_chapter_title
  simp only [hfind]
  rw [if_pos (by simp [bne_iff_ne, hne])]

/-- Witness for C7's amended theorem on the example page (where the
returned normalization happens to be the empty string). -/
theorem title_h1_no_fallthrough_witness :
    extract_chapter_title exTitleSoup = clean_chapter_title (getTextStrip "" h1Node) :=
  title_h1_no_fallthrough exTitleSoup h1Node rfl (by decide)

/-- A 110-character text. -/
def longText : String :=
  "xxxxxxxxxxxxxxxxxxxxxxxxxxxxxxxxxxxxxxxxxxxxxxxxxxxxxxxxxxxxxxxxxxxxxxxxxxxxxxxxxxxxxxxxxxxxxxxxxxxxxxxxxxxx"

def scriptNode : Node := .elem "script" none [] none [.text longText]

def contentDiv : Node := .elem "div" (some "content") [] none [scriptNode, .text "HI"]

def exContentSoup : Node := .elem "[document]" none [] none [contentDiv]

/-- C4 (counterexample): the 100-character threshold is checked on the
text BEFORE the script/style removal, while the returned string is
serialized AFTER it.  Here `div#content` passes the check (112
characters, 110 of them inside a `<script>`), the script is then
decomposed, and the extractor returns the 2-character string `"HI"` —
a result far below 100 characters from a selector that matched a
qualifying root. -/
theorem content_threshold_cex :
    100 < (getTextStrip "" contentDiv).length ∧
    findNode (selMatch ⟨"div", some (.exact "content"), none⟩) exContentSoup = some contentDiv ∧
    extract_main_content exContentSoup = some "HI" ∧
    ("HI" : String).length < 100 :=
  ⟨by decide, rfl, by decide, by decide⟩

theorem firstSome_none_iff :
    ∀ l : List (Option String), firstSome l = none ↔ ∀ o ∈ l, o = none := by
  intro l
  induction l with
  | nil => simp [firstSome]
  | cons o os ih =>
    cases o with
    | some s => simp [firstSome]
    | none => simp [firstSome, ih]

/-- C4 (amended): `extract_main_content` returns `None` exactly when no
selector's FIRST match has strictly more than 100 characters of
pre-removal stripped text.  (The threshold is strict, the check uses the
pre-removal text, and only the first element matching each selector is
consulted; the returned post-removal string itself may be shorter than
100 characters.) -/
theorem content_none_iff (soup : Node) :
    extract_main_content soup = none ↔
      ∀ sel ∈ selectorList, ∀ e, findNode (selMatch sel) soup = some e →
        (getTextStrip "" e).length ≤ 100 := by
  unfold extract_main_content
  rw [firstSome_none_iff]
  constructor
  · intro h sel hsel e hfind
    have := h (trySel soup sel) (List.mem_map_of_mem (trySel soup) hsel)
    unfold trySel at this
    simp only [hfind] at this
    by_contra hlen
    rw [if_pos (by omega)] at this
    cases this
  · intro h o ho
    obtain ⟨sel, hsel, rfl⟩ := List.mem_map.mp ho
    unfold trySel
    cases hfind : findNode (selMatch sel) soup with
    | none => rfl
    | some e =>
      have := h sel hsel e hfind
      simp only [hfind]
      rw [if_neg (by omega)]

def adDiv : Node := .elem "div" none ["ad"] none [.text "ADTEXT"]

def adContentDiv : Node := .elem "div" (some "content") [] none [.text longText, adDiv]

def exAdSoup : Node := .elem "[document]" none [] none [adContentDiv]

/-- C10: `find_all(["script", "style", "div.ad", "ins", "iframe"])`
matches tag NAMES, and no element is named `"div.ad"` — so an ad-marked
`<div class="ad">` descendant of the content root is never decomposed
and its text survives into the serialized content, contrary to the
claim (and to the evident intent of the `"div.ad"` entry). -/
theorem ad_div_not_removed :
    extract_main_content exAdSoup = some (longText ++ "\nADTEXT") ∧
    hasSub "ADTEXT".data (longText ++ "\nADTEXT").data = true := by decide

/-! ## Idempotence analysis of `clean_chapter_title` (C5)

The second application of the bracket pass is the identity because the
first leaves no opening bracket that still sees its closing bracket
before a newline (`noBracketPair`), and that shape survives trimming.
The dash pass, by contrast, is NOT idempotent in general — removing one
match can bring an earlier dash next to the remaining digits — but it is
the identity on dash-free strings, and the bracket pass and trimming
never introduce a dash. -/

theorem scanClose_mem (cl : Char) :
    ∀ (l r : List Char), scanClose cl l = some r → ∀ x ∈ r, x ∈ l := by
  intro l
  induction l with
  | nil => intro r h; simp [scanClose] at h
  | cons c cs ih =>
    intro r h x hx
    simp only [scanClose] at h
    split at h
    · cases h; exact List.mem_cons_of_mem c hx
    · split at h
      · cases h
      · exact List.mem_cons_of_mem c (ih r h x hx)

theorem sub1_subset_aux :
    ∀ (n : Nat) (l : List Char), l.length ≤ n → ∀ x ∈ sub1 l, x ∈ l := by
  intro n
  induction n with
  | zero =>
    intro l hl
    have : l = [] := List.eq_nil_of_length_eq_zero (Nat.le_zero.mp hl)
    subst this
    simp [sub1_nil]
  | succ n ih =>
    intro l hl x hx
    cases l with
    | nil => simp [sub1_nil] at hx
    | cons c cs =>
      have hcs : cs.length ≤ n := by simp at hl; omega
      cases hb : bracketClose c with
      | none =>
        rw [sub1_cons_none c cs hb] at hx
        rcases List.mem_cons.mp hx with h | h
        · simp [h]
        · exact List.mem_cons_of_mem c (ih cs hcs x h)
      | some cl =>
        cases hs : scanClose cl cs with
        | none =>
          rw [sub1_cons_keep c cl cs hb hs] at hx
          rcases List.mem_cons.mp hx with h | h
          · simp [h]
          · exact List.mem_cons_of_mem c (ih cs hcs x h)
        | some rest =>
          rw [sub1_cons_skip c cl cs rest hb hs] at hx
          have hrest : rest.length ≤ n :=
            Nat.le_trans (Nat.le_of_lt (scanClose_lt cl cs rest hs)) hcs
          exact List.mem_cons_of_mem c
            (scanClose_mem cl cs rest hs x (ih rest hrest x hx))

theorem sub1_subset (l : List Char) : ∀ x ∈ sub1 l, x ∈ l :=
  sub1_subset_aux l.length l (Nat.le_refl _)

theorem sub2_eq_of_nodash_aux :
    ∀ (n : Nat) (l : List Char), l.length ≤ n → (∀ c ∈ l, isDash c = false) →
      sub2 l = l := by
  intro n
  induction n with
  | zero =>
    intro l hl _
    have : l = [] := List.eq_nil_of_length_eq_zero (Nat.le_zero.mp hl)
    subst this
    exact sub2_nil
  | succ n ih =>
    intro l hl hnd
    cases l with
    | nil => exact sub2_nil
    | cons c cs =>
      have hcs : cs.length ≤ n := by simp at hl; omega
      rw [sub2_cons_nodash c cs (hnd c (List.mem_cons_self c cs))]
      rw [ih cs hcs (fun x hx => hnd x (List.mem_cons_of_mem c hx))]

theorem sub2_eq_of_nodash (l : List Char) (h : ∀ c ∈ l, isDash c = false) :
    sub2 l = l :=
  sub2_eq_of_nodash_aux l.length l (Nat.le_refl _) h

/-- No opening bracket in `l` still sees its closing bracket before a
newline. -/
def noBracketPair (l : List Char) : Prop :=
  ∀ (a : List Char) (c : Char) (b : List Char), l = a ++ c :: b →
    ∀ cl, bracketClose c = some cl → scanClose cl b = none

theorem scanClose_none_append (cl : Char) :
    ∀ (b s : List Char), scanClose cl (b ++ s) = none → scanClose cl b = none := by
  intro b
  induction b with
  | nil => intro s _; rfl
  | cons c cs ih =>
    intro s h
    simp only [List.cons_append, scanClose] at h ⊢
    by_cases h1 : c = cl
    · rw [if_pos h1] at h
      cases h
    · rw [if_neg h1] at h ⊢
      by_cases h2 : c = '\n'
      · rw [if_pos h2]
      · rw [if_neg h2] at h ⊢
        exact ih s h

theorem bracketClose_ne_newline (c cl : Char) (h : bracketClose c = some cl) :
    cl ≠ '\n' := by
  unfold bracketClose at h
  split at h
  · cases h; decide
  · split at h
    · cases h; decide
    · split at h
      · cases h; decide
      · cases h

theorem scanClose_none_of_skip (cl cl2 : Char) (hne : cl2 ≠ '\n') :
    ∀ (l rest : List Char), scanClose cl l = none → scanClose cl2 l = some rest →
      scanClose cl rest = none := by
  intro l
  induction l with
  | nil => intro rest _ h2; simp [scanClose] at h2
  | cons c cs ih =>
    intro rest h1 h2
    have hccl : ¬ c = cl := by
      rintro rfl
      simp [scanClose] at h1
    simp only [scanClose] at h1 h2
    rw [if_neg hccl] at h1
    by_cases hc2 : c = cl2
    · rw [if_pos hc2] at h2
      cases h2
      have hn : ¬ c = '\n' := by
        rw [hc2]
        exact hne
      rw [if_neg hn] at h1
      exact h1
    · rw [if_neg hc2] at h2
      by_cases hn : c = '\n'
      · rw [if_pos hn] at h2
        cases h2
      · rw [if_neg hn] at h1 h2
        exact ih rest h1 h2

theorem scanClose_none_sub1_aux (cl : Char) :
    ∀ (n : Nat) (l : List Char), l.length ≤ n → scanClose cl l = none →
      scanClose cl (sub1 l) = none := by
  intro n
  induction n with
  | zero =>
    intro l hl _
    have : l = [] := List.eq_nil_of_length_eq_zero (Nat.le_zero.mp hl)
    subst this
    rfl
  | succ n ih =>
    intro l hl h
    cases l with
    | nil => rfl
    | cons c cs =>
      have hcs : cs.length ≤ n := by simp at hl; omega
      have hccl : ¬ c = cl := by
        rintro rfl
        simp [scanClose] at h
      by_cases hn : c = '\n'
      · subst hn
        rw [sub1_cons_none _ _ (by decide)]
        simp only [scanClose]
        rw [if_neg hccl]
        simp
      · have h' : scanClose cl cs = none := by
          simp only [scanClose] at h
          rw [if_neg hccl, if_neg hn] at h
          exact h
        cases hb : bracketClose c with
        | none =>
          rw [sub1_cons_none c cs hb]
          simp only [scanClose]
          rw [if_neg hccl, if_neg hn]
          exact ih cs hcs h'
        | some cl2 =>
          cases hs : scanClose cl2 cs with
          | none =>
            rw [sub1_cons_keep c cl2 cs hb hs]
            simp only [scanClose]
            rw [if_neg hccl, if_neg hn]
            exact ih cs hcs h'
          | some rest =>
            rw [sub1_cons_skip c cl2 cs rest hb hs]
            have hrest : rest.length ≤ n :=
              Nat.le_trans (Nat.le_of_lt (scanClose_lt cl2 cs rest hs)) hcs
            exact ih rest hrest
              (scanClose_none_of_skip cl cl2 (bracketClose_ne_newline c cl2 hb) cs rest h' hs)

theorem sub1_noBracketPair_aux :
    ∀ (n : Nat) (l : List Char), l.length ≤ n → noBracketPair (sub1 l) := by
  intro n
  induction n with
  | zero =>
    intro l hl
    have : l = [] := List.eq_nil_of_length_eq_zero (Nat.le_zero.mp hl)
    subst this
    intro a c b heq
    rw [sub1_nil] at heq
    exact absurd heq.symm (by simp)
  | succ n ih =>
    intro l hl
    cases l with
    | nil =>
      intro a c b heq
      rw [sub1_nil] at heq
      exact absurd heq.symm (by simp)
    | cons c0 cs =>
      have hcs : cs.length ≤ n := by simp at hl; omega
      cases hb : bracketClose c0 with
      | none =>
        rw [sub1_cons_none c0 cs hb]
        intro a c b heq cl hc
        cases a with
        | nil =>
          simp only [List.nil_append, List.cons.injEq] at heq
          obtain ⟨rfl, rfl⟩ := heq
          rw [hb] at hc
          cases hc
        | cons a0 as =>
          simp only [List.cons_append, List.cons.injEq] at heq
          exact ih cs hcs as c b heq.2 cl hc
      | some cl0 =>
        cases hs : scanClose cl0 cs with
        | some rest =>
          rw [sub1_cons_skip c0 cl0 cs rest hb hs]
          have hrest : rest.length ≤ n :=
            Nat.le_trans (Nat.le_of_lt (scanClose_lt cl0 cs rest hs)) hcs
          exact ih rest hrest
        | none =>
          rw [sub1_cons_keep c0 cl0 cs hb hs]
          intro a c b heq cl hc
          cases a with
          | nil =>
            simp only [List.nil_append, List.cons.injEq] at heq
            obtain ⟨rfl, rfl⟩ := heq
            rw [hb] at hc
            have hcl : cl = cl0 := (Option.some.inj hc).symm
            subst hcl
            exact scanClose_none_sub1_aux cl n cs hcs hs
          | cons a0 as =>
            simp only [List.cons_append, List.cons.injEq] at heq
            exact ih cs hcs as c b heq.2 cl hc

theorem sub1_noBracketPair (l : List Char) : noBracketPair (sub1 l) :=
  sub1_noBracketPair_aux l.length l (Nat.le_refl _)

theorem noBracketPair_sub1_eq_aux :
    ∀ (n : Nat) (l : List Char), l.length ≤ n → noBracketPair l → sub1 l = l := by
  intro n
  induction n with
  | zero =>
    intro l hl _
    have : l = [] := List.eq_nil_of_length_eq_zero (Nat.le_zero.mp hl)
    subst this
    exact sub1_nil
  | succ n ih =>
    intro l hl hQ
    cases l with
    | nil => exact sub1_nil
    | cons c cs =>
      have hcs : cs.length ≤ n := by simp at hl; omega
      have hQcs : noBracketPair cs := by
        intro a d b heq cl hd
        exact hQ (c :: a) d b (by rw [heq]; rfl) cl hd
      cases hb : bracketClose c with
      | none =>
        rw [sub1_cons_none c cs hb, ih cs hcs hQcs]
      | some cl =>
        have hs : scanClose cl cs = none := hQ [] c cs rfl cl hb
        rw [sub1_cons_keep c cl cs hb hs, ih cs hcs hQcs]

theorem noBracketPair_sub1_eq (l : List Char) (h : noBracketPair l) : sub1 l = l :=
  noBracketPair_sub1_eq_aux l.length l (Nat.le_refl _) h

theorem noBracketPair_infix (p m q : List Char) (h : noBracketPair (p ++ m ++ q)) :
    noBracketPair m := by
  intro a c b heq cl hc
  have : p ++ m ++ q = (p ++ a) ++ c :: (b ++ q) := by
    rw [heq]
    simp [List.append_assoc]
  exact scanClose_none_append cl b q (h (p ++ a) c (b ++ q) this cl hc)

theorem trim_decomp (l : List Char) :
    ∃ p q, l = p ++ trimChars l ++ q := by
  refine ⟨l.takeWhile isSpaceChar,
    ((l.dropWhile isSpaceChar).reverse.takeWhile isSpaceChar).reverse, ?_⟩
  unfold trimChars
  conv_lhs => rw [← List.takeWhile_append_dropWhile (p := isSpaceChar) (l := l)]
  rw [List.append_assoc]
  congr 1
  conv_lhs => rw [← List.reverse_reverse (l.dropWhile isSpaceChar)]
  conv_lhs =>
    rw [← List.takeWhile_append_dropWhile (p := isSpaceChar)
      (l := (l.dropWhile isSpaceChar).reverse)]
  rw [List.reverse_append]

theorem dropWhile_head_false (p : Char → Bool) :
    ∀ (l : List Char) (c : Char) (cs : List Char), l.dropWhile p = c :: cs →
      p c = false := by
  intro l
  induction l with
  | nil => intro c cs h; simp at h
  | cons x xs ih =>
    intro c cs h
    by_cases hx : p x
    · rw [List.dropWhile_cons_of_pos hx] at h
      exact ih c cs h
    · rw [List.dropWhile_cons_of_neg hx] at h
      cases h
      exact Bool.eq_false_iff.mpr hx

theorem dropWhile_eq_self_of_head (p : Char → Bool) (l : List Char)
    (h : ∀ c cs, l = c :: cs → p c = false) : l.dropWhile p = l := by
  cases l with
  | nil => rfl
  | cons c cs =>
    rw [List.dropWhile_cons_of_neg (by simp [h c cs rfl])]

theorem getLast?_dropWhile (p : Char → Bool) :
    ∀ l : List Char, l.dropWhile p ≠ [] → (l.dropWhile p).getLast? = l.getLast? := by
  intro l
  induction l with
  | nil => intro h; simp at h
  | cons c cs ih =>
    intro h
    by_cases hc : p c
    · rw [List.dropWhile_cons_of_pos hc] at h ⊢
      rw [ih h]
      cases hcs : cs with
      | nil =>
        rw [hcs] at h
        simp at h
      | cons d ds => simp [List.getLast?_cons_cons]
    · rw [List.dropWhile_cons_of_neg hc]

theorem trimChars_idem (l : List Char) : trimChars (trimChars l) = trimChars l := by
  have key : ∀ m : List Char,
      (∀ c cs, m = c :: cs → isSpaceChar c = false) →
      (∀ c cs, m.reverse = c :: cs → isSpaceChar c = false) →
      trimChars m = m := by
    intro m h1 h2
    unfold trimChars
    rw [dropWhile_eq_self_of_head isSpaceChar m h1]
    rw [dropWhile_eq_self_of_head isSpaceChar m.reverse h2]
    exact List.reverse_reverse m
  apply key
  · intro c cs hc
    have hune : (l.dropWhile isSpaceChar).reverse.dropWhile isSpaceChar ≠ [] := by
      intro he
      unfold trimChars at hc
      rw [he] at hc
      simp at hc
    have h1 : ((l.dropWhile isSpaceChar).reverse.dropWhile isSpaceChar).getLast? = some c := by
      rw [← List.head?_reverse]
      show (trimChars l).head? = some c
      rw [hc]
      rfl
    rw [getLast?_dropWhile isSpaceChar _ hune, List.getLast?_reverse] at h1
    cases hdl : l.dropWhile isSpaceChar with
    | nil =>
      rw [hdl] at h1
      simp at h1
    | cons d ds =>
      rw [hdl] at h1
      simp only [List.head?_cons, Option.some.injEq] at h1
      rw [← h1]
      exact dropWhile_head_false isSpaceChar l d ds hdl
  · intro c cs hc
    have hc2 : (l.dropWhile isSpaceChar).reverse.dropWhile isSpaceChar = c :: cs := by
      have : (trimChars l).reverse = c :: cs := hc
      rw [show (trimChars l).reverse =
        (l.dropWhile isSpaceChar).reverse.dropWhile isSpaceChar from
        List.reverse_reverse _] at this
      exact this
    exact dropWhile_head_false isSpaceChar (l.dropWhile isSpaceChar).reverse c cs hc2

theorem trimChars_subset (l : List Char) : ∀ x ∈ trimChars l, x ∈ l := by
  obtain ⟨p, q, hpq⟩ := trim_decomp l
  intro x hx
  rw [hpq]
  simp only [List.mem_append]
  exact Or.inl (Or.inr hx)

/-- C5 (amended): on titles containing no dash character (ASCII `-` or
em-dash `—`) the normalizer is idempotent.  (In general it is not: the
dash-pagination pass can create a fresh dash-pagination match, see the
counterexample.) -/
theorem clean_title_idem_of_no_dash (s : String)
    (hd : ∀ c ∈ s.data, isDash c = false) :
    clean_chapter_title (clean_chapter_title s) = clean_chapter_title s := by
  show (trimChars (sub2 (sub1 (trimChars (sub2 (sub1 s.data)))))).asString =
    (trimChars (sub2 (sub1 s.data))).asString
  have hnd1 : ∀ c ∈ sub1 s.data, isDash c = false :=
    fun c hc => hd c (sub1_subset s.data c hc)
  rw [sub2_eq_of_nodash (sub1 s.data) hnd1]
  obtain ⟨p, q, hpq⟩ := trim_decomp (sub1 s.data)
  have hQ : noBracketPair (sub1 s.data) := sub1_noBracketPair s.data
  have hQm : noBracketPair (trimChars (sub1 s.data)) :=
    noBracketPair_infix p _ q (by rw [← hpq]; exact hQ)
  rw [noBracketPair_sub1_eq _ hQm]
  rw [sub2_eq_of_nodash _ (fun c hc => hnd1 c (trimChars_subset (sub1 s.data) c hc))]
  rw [trimChars_idem]

/-- C5 (counterexample): normalization is not idempotent.  On
`"— -1 2页"` the dash pass removes `"-1"`, which leaves `"—  2页"` — a
string the dash pass itself would match — so a second normalization
returns `""` instead. -/
theorem clean_title_not_idem :
    clean_chapter_title (clean_chapter_title "— -1 2页") ≠
      clean_chapter_title "— -1 2页" := by decide

/-- Witness for C5's amended theorem on a dash-free title with a
bracketed span. -/
theorem clean_title_idem_witness :
    clean_chapter_title (clean_chapter_title "第一章 (2/3)") =
      clean_chapter_title "第一章 (2/3)" :=
  clean_title_idem_of_no_dash "第一章 (2/3)" (by decide)

/-! ## The URL-pattern increment (C8)

`re.search` decomposes the URL as `a ++ (key ++ "=" ++ digits) ++ r` at
the leftmost match; `str.replace` then rewrites EVERY occurrence of the
matched substring.  When the matched substring occurs nowhere else, the
replacement is the in-place splice the spec describes. -/

theorem digitsRun_eq :
    ∀ (l d r : List Char), digitsRun l = (d, r) → l = d ++ r := by
  intro l
  induction l with
  | nil =>
    intro d r h
    simp only [digitsRun, Prod.mk.injEq] at h
    obtain ⟨h1, h2⟩ := h
    subst h1
    subst h2
    rfl
  | cons c cs ih =>
    intro d r h
    simp only [digitsRun] at h
    by_cases hc : c.isDigit = true
    · rw [if_pos hc] at h
      injection h with h1 h2
      subst h1
      subst h2
      obtain ⟨d2, r2, hrec⟩ : ∃ d2 r2, digitsRun cs = (d2, r2) := ⟨_, _, rfl⟩
      have hcs := ih d2 r2 hrec
      rw [hrec]
      simp [hcs]
    · rw [if_neg hc] at h
      injection h with h1 h2
      subst h1
      subst h2
      rfl

theorem keyDigitsP_eq (l k d r : List Char) (h : keyDigitsP l = some (k, d, r)) :
    l = k ++ '=' :: (d ++ r) := by
  cases l with
  | nil => cases h
  | cons c1 t1 =>
    cases t1 with
    | nil => cases h
    | cons c2 rest =>
      simp only [keyDigitsP] at h
      by_cases hc : c1.toLower = 'p' ∧ c2 = '='
      · rw [if_pos hc] at h
        cases rest with
        | nil => cases h
        | cons c3 rest2 =>
          have h2 : (if c3.isDigit = true then
              some ([c1], (digitsRun (c3 :: rest2)).1, (digitsRun (c3 :: rest2)).2)
            else none) = some (k, d, r) := h
          by_cases h3 : c3.isDigit = true
          · rw [if_pos h3] at h2
            obtain ⟨dd, rr, hd⟩ : ∃ dd rr, digitsRun (c3 :: rest2) = (dd, rr) := ⟨_, _, rfl⟩
            rw [hd] at h2
            simp only [Option.some.injEq, Prod.mk.injEq] at h2
            obtain ⟨rfl, rfl, rfl⟩ := h2
            rw [hc.2, ← digitsRun_eq (c3 :: rest2) dd rr hd]
            rfl
          · rw [if_neg h3] at h2
            cases h2
      · rw [if_neg hc] at h
        cases h

theorem keyDigits_eq (l k d r : List Char) (h : keyDigits l = some (k, d, r)) :
    l = k ++ '=' :: (d ++ r) := by
  cases l with
  | nil => exact keyDigitsP_eq _ k d r h
  | cons c1 t1 =>
    cases t1 with
    | nil => exact keyDigitsP_eq _ k d r h
    | cons c2 t2 =>
      cases t2 with
      | nil => exact keyDigitsP_eq _ k d r h
      | cons c3 t3 =>
        cases t3 with
        | nil => exact keyDigitsP_eq _ k d r h
        | cons c4 t4 =>
          cases t4 with
          | nil => exact keyDigitsP_eq _ k d r h
          | cons c5 rest =>
            simp only [keyDigits] at h
            by_cases hc : c1.toLower = 'p' ∧ c2.toLower = 'a' ∧ c3.toLower = 'g' ∧
                c4.toLower = 'e' ∧ c5 = '='
            · rw [if_pos hc] at h
              cases rest with
              | nil => exact keyDigitsP_eq _ k d r h
              | cons c6 rest2 =>
                have h2 : (if c6.isDigit = true then
                    some ([c1, c2, c3, c4], (digitsRun (c6 :: rest2)).1,
                      (digitsRun (c6 :: rest2)).2)
                  else keyDigitsP (c1 :: c2 :: c3 :: c4 :: c5 :: c6 :: rest2)) =
                    some (k, d, r) := h
                by_cases h6 : c6.isDigit = true
                · rw [if_pos h6] at h2
                  obtain ⟨dd, rr, hdr⟩ : ∃ dd rr, digitsRun (c6 :: rest2) = (dd, rr) :=
                    ⟨_, _, rfl⟩
                  rw [hdr] at h2
                  simp only [Option.some.injEq, Prod.mk.injEq] at h2
                  obtain ⟨rfl, rfl, rfl⟩ := h2
                  rw [hc.2.2.2.2, ← digitsRun_eq (c6 :: rest2) dd rr hdr]
                  rfl
                · rw [if_neg h6] at h2
                  exact keyDigitsP_eq _ k d r h2
            · rw [if_neg hc] at h
              exact keyDigitsP_eq _ k d r h

theorem searchKD_eq :
    ∀ (l a k d r : List Char), searchKD l = some (a, k, d, r) →
      l = a ++ (k ++ '=' :: d) ++ r := by
  intro l
  induction l with
  | nil => intro a k d r h; cases h
  | cons c cs ih =>
    intro a k d r h
    simp only [searchKD] at h
    cases hk : keyDigits (c :: cs) with
    | some kd =>
      obtain ⟨k0, d0, r0⟩ := kd
      simp only [hk, Option.some.injEq, Prod.mk.injEq] at h
      obtain ⟨rfl, rfl, rfl, rfl⟩ := h
      have he := keyDigits_eq (c :: cs) k0 d0 r0 hk
      rw [he]
      simp [List.append_assoc]
    | none =>
      simp only [hk] at h
      cases hs : searchKD cs with
      | none =>
        simp only [hs] at h
        cases h
      | some t =>
        obtain ⟨a0, k0, d0, r0⟩ := t
        simp only [hs, Option.some.injEq, Prod.mk.injEq] at h
        obtain ⟨rfl, rfl, rfl, rfl⟩ := h
        have he := ih a0 k0 d0 r0 hs
        simp [he]

theorem isPre_append_self :
    ∀ (pat r : List Char), isPre pat (pat ++ r) = true := by
  intro pat
  induction pat with
  | nil => intro r; rfl
  | cons p ps ih =>
    intro r
    show (p == p && isPre ps (ps ++ r)) = true
    rw [ih r]
    simp

theorem replaceAll_no_occ (pat rep : List Char) (_hne : 0 < pat.length) :
    ∀ b : List Char, (∀ i, i < b.length → isPre pat (b.drop i) = false) →
      replaceAll pat rep b = b := by
  intro b
  induction b with
  | nil => intro _; exact replaceAll_nil pat rep
  | cons c cs ih =>
    intro h
    have h0 : isPre pat (c :: cs) = false := h 0 (by simp)
    rw [replaceAll_cons_miss pat rep c cs (by simp [h0])]
    rw [ih (fun i hi => h (i + 1) (by simp; omega))]

theorem replaceAll_splice (pat rep : List Char) (hne : 0 < pat.length) :
    ∀ (a b : List Char),
      (∀ i, i < a.length → isPre pat ((a ++ pat ++ b).drop i) = false) →
      (∀ i, i < b.length → isPre pat (b.drop i) = false) →
      replaceAll pat rep (a ++ pat ++ b) = a ++ rep ++ b := by
  intro a
  induction a with
  | nil =>
    intro b _ h2
    cases hp : pat with
    | nil => rw [hp] at hne; simp at hne
    | cons p ps =>
      rw [← hp]
      have hshape : pat ++ b = p :: (ps ++ b) := by rw [hp]; rfl
      simp only [List.nil_append]
      rw [hshape]
      rw [replaceAll_cons_hit pat rep p (ps ++ b) hne
        (by rw [← hshape]; exact isPre_append_self pat b)]
      have hdrop : (ps ++ b).drop (pat.length - 1) = b := by
        rw [hp]
        simp only [List.length_cons, Nat.add_sub_cancel]
        exact List.drop_left ps b
      rw [hdrop, replaceAll_no_occ pat rep hne b h2]
  | cons x a2 ih =>
    intro b h1 h2
    have h0 : isPre pat ((x :: a2) ++ pat ++ b) = false := by
      have := h1 0 (by simp)
      simpa using this
    simp only [List.cons_append]
    rw [replaceAll_cons_miss pat rep x (a2 ++ pat ++ b) (by
      intro hcontra
      rw [show (x :: (a2 ++ pat ++ b)) = (x :: a2) ++ pat ++ b by simp] at hcontra
      rw [h0] at hcontra
      exact absurd hcontra.2 (by simp))]
    rw [ih b (fun i hi => by
      have := h1 (i + 1) (by simp; omega)
      simpa using this) h2]

/-- C8 (amended): when no anchor heuristic matched, the lowered URL
contains "page", and `(page|p)=(\d+)` matches with key group `k` and
digit group `d` — the URL splitting as `a ++ (k=d) ++ r` — and the
matched substring `k=d` occurs nowhere else in the URL, the resolver
returns the URL with that occurrence replaced in place by `k=(d+1)` and
the rest unchanged.  (Without the uniqueness condition `str.replace`
rewrites EVERY occurrence; see the counterexample.) -/
theorem url_pattern_increment (soup : Node) (url : String) (a k d r : List Char)
    (hkw : kwStage nextKeywords soup = none)
    (hcls : classStage nextClassNames soup = none)
    (hpage : hasSub ['p', 'a', 'g', 'e'] (url.data.map Char.toLower) = true)
    (hkd : searchKD url.data = some (a, k, d, r))
    (h1 : ∀ i, i < a.length → isPre (k ++ '=' :: d) (url.data.drop i) = false)
    (h2 : ∀ i, i < r.length → isPre (k ++ '=' :: d) (r.drop i) = false) :
    extract_next_page soup url =
      some ((a ++ (k ++ '=' :: natDigits (digitsToNat d + 1)) ++ r).asString) := by
  unfold extract_next_page
  simp only [hkw, hcls]
  unfold urlPatternNext
  rw [if_pos hpage]
  simp only [hkd]
  have hurl : url.data = a ++ (k ++ '=' :: d) ++ r := searchKD_eq url.data a k d r hkd
  rw [hurl] at h1 ⊢
  have hne : 0 < (k ++ '=' :: d).length := by simp
  rw [replaceAll_splice (k ++ '=' :: d) (k ++ '=' :: natDigits (digitsToNat d + 1))
    hne a r h1 h2]

def emptySoup : Node := .elem "[document]" none [] none []

/-- Witness for C8's amended theorem: the spec's own example,
`.../read?page=3` with no matching anchor, yields `.../read?page=4`. -/
theorem url_pattern_increment_witness :
    extract_next_page emptySoup "http://site/read?page=3" =
      some "http://site/read?page=4" := by
  have h := url_pattern_increment emptySoup "http://site/read?page=3"
    "http://site/read?".data ['p', 'a', 'g', 'e'] ['3'] []
    rfl rfl (by decide) (by decide) (by decide) (by decide)
  exact h.trans (by decide)

/-- C8 (counterexample): `str.replace` is a global substring
replacement, so when the matched `page=2` occurs twice the resolver
rewrites both occurrences — the claim's "substituted back in its place,
leaving the rest of the URL unchanged" predicts
`http://s/page=3?ref=page=2`, but the code returns
`http://s/page=3?ref=page=3`. -/
theorem url_increment_global_cex :
    extract_next_page emptySoup "http://s/page=2?ref=page=2" =
      some "http://s/page=3?ref=page=3" ∧
    some ("http://s/page=3?ref=page=3" : String) ≠
      some ("http://s/page=3?ref=page=2" : String) := by decide

end NovelDL
